import Mathlib

/-!
Verification development for the UQpy sampling library
(`src/UQpy/SampleMethods.py`, `src/UQpy/Distributions.py`).

The Python code is shallowly embedded over `ℚ`: every `float` is modelled as a
rational, every NumPy array as a (nested) `List ℚ`, and every call to a random
primitive (`np.random.rand`, `np.random.uniform`, `np.random.normal`,
`np.random.random`, `random.random`, `random.choice`, `np.random.permutation`)
consumes a value from an explicit oracle argument, so every run is a
deterministic function of the configuration and the oracle.  Fallible Python
operations (out-of-range NumPy indexing, raised exceptions) are modelled with
`Option`/`Except`.
-/

/-- An out-of-range extractor for `Except`: the raised message, if any. -/
def exErr {α : Type} (r : Except String α) : Option String :=
  match r with
  | .error e => some e
  | .ok _ => none

/-- NumPy row assignment `buf[i, :] = v`: fails with `IndexError` (modelled as
`none`) when `i` is out of range. -/
def pySet {α : Type} (b : List α) (i : Nat) (v : α) : Option (List α) :=
  if i < b.length then some (b.set i v) else none

/-- Python slice `l[s:e]` (step 1, nonnegative bounds, clamped). -/
def pySlice1 {α : Type} (l : List α) (s e : Nat) : List α :=
  (l.take e).drop s

/-- Python slice `l[start:stop:step]` with nonnegative bounds. -/
def pySliceStep {α : Type} (l : List α) (start stop step : Nat) : List α :=
  (List.range l.length).filterMap
    (fun i => if start ≤ i ∧ i < stop ∧ (i - start) % step = 0 then l[i]? else none)

/-- Model of `np.random.uniform(low, high)` modelled with an oracle draw `u ∈ [0,1)`:
the returned sample is `low + (high - low) * u`. -/
def np_random_uniform (low high u : ℚ) : ℚ := low + (high - low) * u

/-- Model of `np.random.normal(loc, scale)` modelled with an oracle draw `z` (a standard
normal variate): the returned sample is `loc + scale * z`. -/
def np_random_normal (loc scale z : ℚ) : ℚ := loc + scale * z

/-- Model of `random.choice(rows)` of the stdlib `random` module on a 2-D array: returns
the row at a uniformly drawn in-range index.  The oracle supplies `k`; the
primitive itself guarantees the index is in range, modelled by reducing `k`
modulo the number of rows. -/
def py_random_choice (rows : List (List ℚ)) (k : Nat) : List ℚ :=
  rows.getD (k % rows.length) []

/-- Pointwise ternary zip, used for vectorised NumPy expressions. -/
def zipWith3Q (f : ℚ → ℚ → ℚ → ℚ) : List ℚ → List ℚ → List ℚ → List ℚ
  | a :: as, b :: bs, c :: cs => f a b c :: zipWith3Q f as bs cs
  | _, _, _ => []

/-- SampleMethods.py line 863 evaluates `self.pdf_proposal_type == 'Uniform'`
where `self.pdf_proposal_type` is a *list* (init_mcmc wraps the string into a
list at lines 1014-1015 and broadcasts it).  In Python, a list never compares
equal to a string, so this condition is always `False`. -/
def pyListEqStr (_l : List String) (_s : String) : Bool := false

/-!
Section: The MCMC chain loop

All three `run_mcmc` kernels share the same shape: a preallocated buffer of
rows, and a loop over indices `i` that computes a new row from rows of index
`≤ i` and assigns it to `buf[i+1, :]`.  `chainFold f b is` runs that loop over
the index list `is`; `f b i` computes the value the Python loop body assigns at
step `i` (it returns `none` where the Python body raises), and the assignment
itself is a `pySet` that fails exactly where NumPy raises `IndexError`.
-/

def chainFold {α : Type} (f : List α → Nat → Option α) :
    List α → List Nat → Option (List α)
  | b, [] => some b
  | b, i :: rest =>
    (f b i).bind fun v => (pySet b (i+1) v).bind fun b' => chainFold f b' rest

theorem pySet_some {α : Type} {b : List α} {i : Nat} {v : α} {b' : List α}
    (h : pySet b i v = some b') : i < b.length ∧ b' = b.set i v := by
  unfold pySet at h
  split at h
  · exact ⟨by assumption, (Option.some.injEq _ _ ▸ h).symm⟩
  · exact absurd h (by simp)

/-- The loop invariant for `chainFold` over consecutive indices
`s, s+1, …, s+n-1`: if the step function reads only rows of index `≤ i`
(hypothesis `hdep`), then a successful run preserves the buffer length, leaves
rows `0..s` untouched, and every written row `s+t+1` holds exactly the value
the step function computes at index `s+t` — evaluated on the *final* buffer,
which agrees with the in-flight buffer on all rows the step reads. -/
theorem chainFold_spec {α : Type} (f : List α → Nat → Option α)
    (hdep : ∀ b b' i, b.length = b'.length → (∀ j, j ≤ i → b[j]? = b'[j]?) →
      f b i = f b' i) :
    ∀ (n s : Nat) (b bN : List α), chainFold f b (List.range' s n) = some bN →
      bN.length = b.length ∧ (∀ j, j ≤ s → bN[j]? = b[j]?) ∧
      (∀ t, t < n → ∃ v, f bN (s + t) = some v ∧ bN[s + t + 1]? = some v) := by
  intro n
  induction n with
  | zero =>
    intro s b bN h
    simp only [List.range'] at h
    simp only [chainFold, Option.some.injEq] at h
    subst h
    exact ⟨rfl, fun _ _ => rfl, fun t ht => absurd ht (Nat.not_lt_zero t)⟩
  | succ n ih =>
    intro s b bN h
    rw [List.range'_succ] at h
    simp only [chainFold] at h
    cases hv : f b s with
    | none => rw [hv] at h; exact absurd h (by simp)
    | some v =>
      rw [hv] at h
      simp only [Option.some_bind] at h
      cases hb' : pySet b (s+1) v with
      | none => rw [hb'] at h; exact absurd h (by simp)
      | some b' =>
        rw [hb'] at h
        simp only [Option.some_bind] at h
        obtain ⟨hlt, hset⟩ := pySet_some hb'
        have hlen' : b'.length = b.length := by
          rw [hset]; exact List.length_set b (s+1) v
        obtain ⟨hlen, hpre, hstep⟩ := ih (s+1) b' bN h
        have hpreb : ∀ j, j ≤ s → bN[j]? = b[j]? := by
          intro j hj
          have h1 : bN[j]? = b'[j]? := hpre j (Nat.le_succ_of_le hj)
          rw [h1, hset, List.getElem?_set_ne (by omega)]
        refine ⟨hlen.trans hlen', hpreb, ?_⟩
        intro t ht
        cases t with
        | zero =>
          refine ⟨v, ?_, ?_⟩
          · have : f bN s = f b s :=
              hdep bN b s (by rw [hlen, hlen']) (fun j hj => hpreb j hj)
            simpa [this] using hv
          · have h1 : bN[s+1]? = b'[s+1]? := hpre (s+1) (Nat.le_refl _)
            rw [Nat.add_zero, h1, hset, List.getElem?_set_self hlt]
        | succ t' =>
          obtain ⟨v', hfv', hbv'⟩ := hstep t' (by omega)
          refine ⟨v', ?_, ?_⟩
          · have : s + 1 + t' = s + (t' + 1) := by omega
            rw [← this]; exact hfv'
          · have : s + 1 + t' + 1 = s + (t' + 1) + 1 := by omega
            rw [← this]; exact hbv'

/-!
Section: Distributions.py — the distribution registry

`Distributions.inv_cdf(dist)` takes one argument: a list whose string entries
are replaced in place by inverse-CDF callables `f(x, params)`.  An entry that
is none of the seven built-in names falls through to a check for a
`custom_dist.py` file in the working directory and otherwise raises
`NotImplementedError('Unidentified pdf_type')`.
-/

/-- The built-in distribution names (Distributions.py). -/
def Distributions.supportedNames : List String :=
  ["Uniform", "Normal", "Lognormal", "Weibull", "Beta", "Exponential", "Gamma"]

/-- Model of `scipy.stats.uniform.ppf(x, loc, scale)` on its nominal domain
`0 ≤ x ≤ 1`: the inverse CDF of `Uniform(loc, loc+scale)` is `loc + scale*x`. -/
def Distributions.uniform_ppf (x loc scale : ℚ) : ℚ := loc + scale * x

/-- The inverse CDFs of the remaining built-in families are transcendental and
are evaluated by no claim below; the registry model only needs to distinguish
supported from unsupported names there, so their values are irrelevant. -/
def Distributions.otherPpf (_name : String) (_x : ℚ) (_params : List ℚ) : ℚ := 0

/-- The repository ships no `custom_dist.py`, so the
`os.path.isfile('custom_dist.py')` fallback branch is never taken. -/
def Distributions.customDistExists : Bool := false

/-- Resolution of one registry entry by `Distributions.inv_cdf`. -/
def Distributions.icdfEntry (name : String) : Except String (ℚ → List ℚ → ℚ) :=
  if name = "Uniform" then
    .ok (fun x params => Distributions.uniform_ppf x (params.getD 0 0) (params.getD 1 0))
  else if name ∈ Distributions.supportedNames then
    .ok (Distributions.otherPpf name)
  else if Distributions.customDistExists then
    .ok (Distributions.otherPpf name)
  else
    .error "Unidentified pdf_type"

/-- Model of `Distributions.inv_cdf` applied to a list of names (its intended use, as in
`STS.__init__`): every entry is resolved, or the first unsupported entry
raises. -/
def Distributions.inv_cdf (dist : List String) :
    Except String (List (ℚ → List ℚ → ℚ)) :=
  dist.mapM Distributions.icdfEntry

/-- Iterating a Python *string* (as `inv_cdf` does with `for i in
range(len(dist))` / `dist[i]` when it is handed a single name instead of a
list) yields its characters, each itself a length-1 `str`. -/
def Distributions.strAsPyIterable (s : String) : List String :=
  s.data.map (fun c => String.mk [c])

/-!
Section: MCS — Monte Carlo sampling (SampleMethods.py lines 33-108)

`MCS.run_mcs` (lines 61-65) draws `samples = np.random.rand(nsamples,
dimension)` and then evaluates `inv_cdf(samples, self.dist_type,
self.dist_params)` — a call with three positional arguments to a function
defined with exactly one parameter, so Python raises `TypeError` at the call
and no pair of arrays is ever returned.
-/

/-- Number of positional arguments at the call site
`inv_cdf(samples, self.dist_type, self.dist_params)` (line 64). -/
def MCS.invCdfCallArgCount : Nat := 3

/-- Number of parameters of `def inv_cdf(dist)` (Distributions.py line 152). -/
def Distributions.invCdfParamCount : Nat := 1

/-- Model of `MCS.run_mcs`.  The uniform draw that precedes the failing call is still
modelled (`u i j` is the `np.random.rand` entry for row `i`, column `j`); the
`.ok` branch is unreachable because the arities differ, and the source defines
no semantics for it. -/
def MCS.run_mcs (nsamples dimension : Nat)
    (_dist_type : List String) (_dist_params : List (List ℚ))
    (u : Nat → Nat → ℚ) : Except String (List (List ℚ) × List (List ℚ)) :=
  let samples := (List.range nsamples).map (fun i => (List.range dimension).map (u i))
  if MCS.invCdfCallArgCount = Distributions.invCdfParamCount then
    .ok (samples, samples)
  else
    .error "TypeError: inv_cdf() takes 1 positional argument but 3 were given"

/-!
Section: LHS — Latin hypercube sampling (SampleMethods.py lines 116-319)
-/

/-- Model of `cut = np.linspace(0, 1, nsamples + 1)`; `a = cut[:nsamples]` — the lower
bin edges `k/n`. -/
def LHS.cutA (n : Nat) : List ℚ := (List.range n).map (fun (k : Nat) => (k : ℚ) / (n : ℚ))

/-- Model of `b = cut[1:nsamples+1]` — the upper bin edges `(k+1)/n`. -/
def LHS.cutB (n : Nat) : List ℚ := (List.range n).map (fun (k : Nat) => ((k : ℚ) + 1) / (n : ℚ))

/-- Model of `LHS._random` before the per-column shuffles: `samples[:, i] = u[:, i] *
(b - a) + a`, one point in stratum `k` of every dimension on row `k`. -/
def LHS.lhsRandomBase (n d : Nat) (u : Nat → Nat → ℚ) : List (List ℚ) :=
  (List.range n).map (fun k => (List.range d).map (fun i =>
    u k i * ((LHS.cutB n).getD k 0 - (LHS.cutA n).getD k 0) + (LHS.cutA n).getD k 0))

/-- Model of `LHS._random` (lines 204-215): after filling the stratified base array,
each column `j` is reindexed by its own `order = np.random.permutation(n)`
(oracle `perm j`): `samples[:, j] = samples[order, j]`. -/
def LHS.lhsRandom (n d : Nat) (u : Nat → Nat → ℚ) (perm : Nat → List Nat) :
    List (List ℚ) :=
  (List.range n).map (fun k => (List.range d).map (fun j =>
    ((LHS.lhsRandomBase n d u).getD ((perm j).getD k 0) []).getD j 0))

/-- Model of `LHS._centered` (lines 217-225): `centers = (a+b)/2` and each column is an
independent random permutation of the centers. -/
def LHS.lhsCentered (n d : Nat) (perm : Nat → List Nat) : List (List ℚ) :=
  (List.range n).map (fun k => (List.range d).map (fun i =>
    (((LHS.cutA n).getD ((perm i).getD k 0) 0) +
      ((LHS.cutB n).getD ((perm i).getD k 0) 0)) / 2))

/-- The two LHS layout criteria covered by the claims.  (`maximin` and
`correlate`, lines 190-193, rerun `_random` with a distance/correlation
selection and are evaluated by no claim.) -/
inductive LHS.Criterion where
  | random
  | centered

/-- Model of `LHS.run_lhs` (lines 180-202): generate the unit-hypercube array, then
transform cell by cell.  The transform obtains `icdf = inv_cdf(self.dist_type[j])`
— passing a single *string* to `inv_cdf`, which iterates it character by
character; no single character is a supported name, so (absent
`custom_dist.py`) the first cell raises `NotImplementedError` and nothing is
returned. -/
def LHS.run_lhs (nsamples dimension : Nat) (dist_type : List String)
    (dist_params : List (List ℚ)) (crit : LHS.Criterion)
    (u : Nat → Nat → ℚ) (perm : Nat → List Nat) :
    Except String (List (List ℚ) × List (List ℚ)) := do
  let samples :=
    match crit with
    | .random => LHS.lhsRandom nsamples dimension u perm
    | .centered => LHS.lhsCentered nsamples dimension perm
  let transformed ← (List.range nsamples).mapM (fun i =>
    (List.range dimension).mapM (fun j => do
      let fs ← Distributions.inv_cdf
        (Distributions.strAsPyIterable (dist_type.getD j ""))
      -- only reachable for an empty name, when `fs = []`
      pure ((fs.headD (fun _ _ => 0))
        ((samples.getD i []).getD j 0) (dist_params.getD j []))))
  pure (samples, transformed)

/-!
Section: Strata — rectilinear stratification (SampleMethods.py lines 579-704)

`Strata.fullfact(levels)` builds the design column by column.  The loop
maintains `level_repeat` (initially 1, multiplied by `levels[i]` after column
`i`) and `range_repeat` (initially `np.prod(levels)`, floor-divided by
`levels[i]` at the start of iteration `i`); column `i` is `lvl * range_repeat`
where `lvl` lists each level `0..levels[i]-1` repeated `level_repeat` times.
`Strata.fullfactAux` carries exactly that running state.
-/

def Strata.fullfactAux : List Nat → Nat → Nat → List (List Nat)
  | [], _, _ => []
  | l :: rest, level_repeat, range_repeat =>
    (List.replicate (range_repeat / l)
      (((List.range l).map (fun j => List.replicate level_repeat j)).flatten)).flatten
    :: Strata.fullfactAux rest (level_repeat * l) (range_repeat / l)

/-- The columns `ff[:, i]` of `Strata.fullfact(levels)`. -/
def Strata.fullfactCols (levels : List Nat) : List (List Nat) :=
  Strata.fullfactAux levels 1 levels.prod

/-- Model of `Strata.fullfact(levels)` as a matrix of `n_comb = np.prod(levels)` rows
and `len(levels)` columns (`ff = np.zeros((n_comb, n_factors))` filled column
by column). -/
def Strata.fullfact (levels : List Nat) : List (List Nat) :=
  (List.range levels.prod).map
    (fun k => (Strata.fullfactCols levels).map (fun col => col.getD k 0))

/-- Model of `Strata.__init__` with `nstrata` given (line 653):
`origins = np.divide(self.fullfact(nstrata), nstrata)` — row-wise elementwise
division. -/
def Strata.origins (nstrata : List Nat) : List (List ℚ) :=
  (Strata.fullfact nstrata).map
    (fun row => List.zipWith (fun (v n : Nat) => (v : ℚ) / n) row nstrata)

/-- Line 654: `widths = np.divide(np.ones(origins.shape), nstrata)`. -/
def Strata.widths (nstrata : List Nat) : List (List ℚ) :=
  (List.range nstrata.prod).map (fun _ => nstrata.map (fun (n : Nat) => (1 : ℚ) / (n : ℚ)))

/-- Line 656: `weights = np.prod(widths, axis=1)`. -/
def Strata.weights (nstrata : List Nat) : List ℚ :=
  (Strata.widths nstrata).map List.prod

/-- The level column of dimension `i` as the specification words it: each
level value `0..nstrata_i - 1` repeated `prod(nstrata[0..i-1])` times
consecutively, the whole block tiled `prod(nstrata[i+1..])` times. -/
def Strata.specLevelColumn (nstrata : List Nat) (i : Nat) : List Nat :=
  (List.replicate ((nstrata.drop (i+1)).prod)
    (((List.range (nstrata.getD i 0)).map
      (fun v => List.replicate ((nstrata.take i).prod) v)).flatten)).flatten

theorem getD_range_map {α : Type} (f : Nat → α) (n i : Nat) (d : α) (h : i < n) :
    ((List.range n).map f).getD i d = f i := by
  rw [List.getD_eq_getElem?_getD]
  simp [List.getElem?_map, List.getElem?_range, h]

/-- The running-state invariant of the `fullfact` loop: with accumulated level
repeat `lr` and remaining levels `levels` (all positive), the columns still to
be produced follow the spec's repeat/tile contract scaled by `lr`. -/
theorem Strata.fullfactAux_eq (levels : List Nat) :
    ∀ lr : Nat, (∀ x ∈ levels, 1 ≤ x) →
    Strata.fullfactAux levels lr levels.prod
      = (List.range levels.length).map (fun i =>
          (List.replicate ((levels.drop (i+1)).prod)
            (((List.range (levels.getD i 0)).map
              (fun v => List.replicate (lr * (levels.take i).prod) v)).flatten)).flatten) := by
  induction levels with
  | nil => intro lr _; simp [Strata.fullfactAux]
  | cons l rest ih =>
    intro lr hpos
    have hl : 1 ≤ l := hpos l (List.mem_cons_self _ _)
    have hdiv : (l :: rest).prod / l = rest.prod := by
      rw [List.prod_cons]; exact Nat.mul_div_cancel_left _ (by omega)
    have hrec := ih (lr * l) (fun x hx => hpos x (List.mem_cons_of_mem _ hx))
    simp only [Strata.fullfactAux, hdiv, hrec, List.length_cons,
      List.range_succ_eq_map, List.map_cons, List.map_map]
    congr 1
    · simp
    · apply List.map_congr_left
      intro i _
      simp only [Function.comp_apply, List.drop_succ_cons, List.getD_cons_succ,
        List.take_succ_cons, List.prod_cons]
      rw [← Nat.mul_assoc]

theorem zipWith_getD {α β γ : Type} (f : α → β → γ) :
    ∀ (as : List α) (bs : List β) (j : Nat) (d : γ) (da : α) (db : β),
      j < as.length → j < bs.length →
      (List.zipWith f as bs).getD j d = f (as.getD j da) (bs.getD j db)
  | _ :: _, _ :: _, 0, _, _, _, _, _ => rfl
  | a :: as, b :: bs, j+1, d, da, db, ha, hb => by
      simp only [List.zipWith_cons_cons, List.getD_cons_succ]
      exact zipWith_getD f as bs j d da db (by simpa using ha) (by simpa using hb)
  | [], _, j, _, _, _, ha, _ => absurd ha (by simp)
  | _ :: _, [], j, _, _, _, _, hb => absurd hb (by simp)

theorem map_getD {α β : Type} (f : α → β) :
    ∀ (l : List α) (j : Nat) (d : β) (da : α), j < l.length →
      (l.map f).getD j d = f (l.getD j da)
  | _ :: _, 0, _, _, _ => rfl
  | a :: l, j+1, d, da, h => by
      simp only [List.map_cons, List.getD_cons_succ]
      exact map_getD f l j d da (by simpa using h)
  | [], j, _, _, h => absurd h (by simp)

theorem sum_map_const_range (n : Nat) (c : ℚ) :
    ((List.range n).map (fun _ => c)).sum = n * c := by
  induction n with
  | zero => simp
  | succ m ih =>
    rw [List.range_succ, List.map_append, List.sum_append, ih]
    push_cast
    simp
    ring

theorem prod_inv_prod (ns : List Nat) (h : ∀ x ∈ ns, 1 ≤ x) :
    ((ns.prod : ℚ)) * (ns.map (fun (n : Nat) => (1:ℚ)/(n : ℚ))).prod = 1 := by
  induction ns with
  | nil => simp
  | cons a l ih =>
    have ha : 1 ≤ a := h a (List.mem_cons_self _ _)
    have ha' : (a : ℚ) ≠ 0 := Nat.cast_ne_zero.mpr (by omega)
    have hrest := ih (fun x hx => h x (List.mem_cons_of_mem _ hx))
    rw [List.prod_cons, List.map_cons, List.prod_cons, Nat.cast_mul]
    have h2 : (a : ℚ) * (1/(a:ℚ)) = 1 := by field_simp
    calc ((a:ℚ) * (l.prod : ℚ)) * ((1/(a:ℚ)) * (l.map (fun (n : Nat) => (1:ℚ)/(n : ℚ))).prod)
        = ((a:ℚ) * (1/(a:ℚ))) * ((l.prod : ℚ) * (l.map (fun (n : Nat) => (1:ℚ)/(n : ℚ))).prod) := by
          ring
      _ = 1 * 1 := by rw [h2, hrest]
      _ = 1 := by ring

/-- The factorial-ordering contract of `Strata` with a strata-count vector:
`prod(nstrata)` cells; the level columns follow the repeat/tile ordering; cell
`k`'s origin in dimension `j` is `level_k,j / nstrata_j`; every width row is
`(1/nstrata_0, …)`; and the weights sum to exactly 1. -/
def Strata.FactorialContract (nstrata : List Nat) : Prop :=
  (Strata.origins nstrata).length = nstrata.prod ∧
  Strata.fullfactCols nstrata
    = (List.range nstrata.length).map (Strata.specLevelColumn nstrata) ∧
  (∀ k, k < nstrata.prod → ∀ j, j < nstrata.length →
    ((Strata.origins nstrata).getD k []).getD j 0
      = ((Strata.specLevelColumn nstrata j).getD k 0 : ℚ) / (nstrata.getD j 0)) ∧
  (∀ k, k < nstrata.prod →
    (Strata.widths nstrata).getD k [] = nstrata.map (fun (n : Nat) => (1:ℚ)/(n : ℚ))) ∧
  (Strata.weights nstrata).sum = 1

theorem Strata.cols_length (nstrata : List Nat) (h : ∀ x ∈ nstrata, 1 ≤ x) :
    (Strata.fullfactCols nstrata).length = nstrata.length := by
  rw [Strata.fullfactCols, Strata.fullfactAux_eq nstrata 1 h]
  simp

/-- C8.  For every strata-count vector (entries ≥ 1), `Strata` builds exactly
`prod(nstrata)` cells whose level columns follow the nested repeat/tile
ordering, whose origins are `level/nstrata_j`, whose widths are `1/nstrata_j`
in every cell, and whose weights sum to 1 (exactly, hence within 1e-5). -/
theorem strata_factorial_contract (nstrata : List Nat)
    (hpos : ∀ x ∈ nstrata, 1 ≤ x) : Strata.FactorialContract nstrata := by
  have hcols : Strata.fullfactCols nstrata
      = (List.range nstrata.length).map (Strata.specLevelColumn nstrata) := by
    rw [Strata.fullfactCols, Strata.fullfactAux_eq nstrata 1 hpos]
    simp only [one_mul]
    rfl
  refine ⟨?_, hcols, ?_, ?_, ?_⟩
  · simp [Strata.origins, Strata.fullfact]
  · intro k hk j hj
    have hrow : (Strata.origins nstrata).getD k []
        = List.zipWith (fun (v n : Nat) => (v : ℚ) / n)
            ((Strata.fullfactCols nstrata).map (fun col => col.getD k 0)) nstrata := by
      rw [Strata.origins, Strata.fullfact, List.map_map]
      exact getD_range_map _ _ _ _ hk
    rw [hrow]
    have hlenc : ((Strata.fullfactCols nstrata).map (fun col => col.getD k 0)).length
        = nstrata.length := by
      rw [List.length_map, Strata.cols_length nstrata hpos]
    have := zipWith_getD (fun (v n : Nat) => (v : ℚ) / n)
      ((Strata.fullfactCols nstrata).map (fun col => col.getD k 0)) nstrata j 0 0 1
      (by omega) hj
    rw [this]
    have hcol : ((Strata.fullfactCols nstrata).map (fun col => col.getD k 0)).getD j 0
        = (Strata.specLevelColumn nstrata j).getD k 0 := by
      rw [map_getD (fun (col : List Nat) => col.getD k 0) (Strata.fullfactCols nstrata) j 0 []
        (by rw [Strata.cols_length nstrata hpos]; exact hj)]
      rw [hcols, getD_range_map _ _ _ _ hj]
    rw [hcol]
    have hn : nstrata.getD j 1 = nstrata.getD j 0 := by
      rcases List.getElem?_eq_some_iff.mp (List.getElem?_eq_getElem hj) with _
      simp [List.getD_eq_getElem?_getD, List.getElem?_eq_getElem hj]
    rw [hn]
  · intro k hk
    exact getD_range_map _ _ _ _ hk
  · rw [Strata.weights, Strata.widths, List.map_map]
    have hsum := sum_map_const_range nstrata.prod
      ((nstrata.map (fun (n : Nat) => (1:ℚ)/(n : ℚ))).prod)
    calc ((List.range nstrata.prod).map
            (List.prod ∘ fun _ => nstrata.map (fun (n : Nat) => (1:ℚ)/(n : ℚ)))).sum
        = ((List.range nstrata.prod).map
            (fun _ => (nstrata.map (fun (n : Nat) => (1:ℚ)/(n : ℚ))).prod)).sum := rfl
      _ = (nstrata.prod : ℚ) * (nstrata.map (fun (n : Nat) => (1:ℚ)/(n : ℚ))).prod := hsum
      _ = 1 := prod_inv_prod nstrata hpos

/-- Witness for C8 at `nstrata = [2,3,2]`. -/
theorem strata_factorial_contract_witness :
    (∀ x ∈ ([2,3,2] : List Nat), 1 ≤ x) ∧ Strata.FactorialContract [2,3,2] :=
  ⟨by decide, strata_factorial_contract [2,3,2] (by decide)⟩

/-!
Section: STS — stratified sampling (SampleMethods.py lines 444-571)

`STS.__init__` builds `self.strata = Strata(nstrata=sts_design)` and resolves
`self.icdf = inv_cdf(self.dist_type)` (the correct single-list call), then
`run_sts` draws one uniform point per stratum and transforms it.
-/

/-- Model of `run_sts` line 514: `samples[i, j] = np.random.uniform(origin, origin + width)`. -/
def STS.samplesU01 (sts_design : List Nat) (u : Nat → Nat → ℚ) : List (List ℚ) :=
  (List.range (Strata.origins sts_design).length).map (fun i =>
    (List.range sts_design.length).map (fun j =>
      np_random_uniform (((Strata.origins sts_design).getD i []).getD j 0)
        (((Strata.origins sts_design).getD i []).getD j 0
          + ((Strata.widths sts_design).getD i []).getD j 0) (u i j)))

/-- Model of `run_sts` line 516: `samples_u_to_x[i, j] = invcdf(samples[i, j], self.dist_params[j])`. -/
def STS.samplesX (sts_design : List Nat) (dist_params : List (List ℚ))
    (icdfs : List (ℚ → List ℚ → ℚ)) (u : Nat → Nat → ℚ) : List (List ℚ) :=
  (List.range (Strata.origins sts_design).length).map (fun i =>
    (List.range sts_design.length).map (fun j =>
      (icdfs.getD j (fun _ _ => 0))
        (((STS.samplesU01 sts_design u).getD i []).getD j 0) (dist_params.getD j [])))

/-- STS construction followed by `run_sts`. -/
def STS.run (sts_design : List Nat) (dist_type : List String)
    (dist_params : List (List ℚ)) (u : Nat → Nat → ℚ) :
    Except String (List (List ℚ) × List (List ℚ)) := do
  let icdfs ← Distributions.inv_cdf dist_type
  pure (STS.samplesU01 sts_design u, STS.samplesX sts_design dist_params icdfs u)

/-!
Section: PSS — partially stratified sampling (SampleMethods.py lines 326-436)

`run_pss` (lines 364-379) constructs, per block,
`STS(dist_type=…, dist_params=…, sts_design=n_stratum, pss_=True)`.
`STS.__init__` (line 497) accepts only the parameters
`dimension, dist_type, dist_params, sts_design, input_file`, so the keyword
`pss_` raises `TypeError` on the first loop iteration.  Lines 375-376 then
reindex the unit-hypercube block and the transformed block with *two separate*
`np.random.permutation(arr)` draws.
-/

/-- The parameter names of `STS.__init__` (line 497). -/
def STS.initKeywordParams : List String :=
  ["dimension", "dist_type", "dist_params", "sts_design", "input_file"]

/-- The keyword names at the `STS(...)` call of `PSS.run_pss` (line 370). -/
def PSS.stsCallKeywords : List String :=
  ["dist_type", "dist_params", "sts_design", "pss_"]

/-- Lines 374-376: `arr = np.arange(nsamples)`; the unit-hypercube block is
reindexed by one `np.random.permutation(arr)` draw (`p1`) and the transformed
block by a second, independent draw (`p2`). -/
def PSS.permutePair (U X : List (List ℚ)) (p1 p2 : List Nat) :
    List (List ℚ) × List (List ℚ) :=
  ((List.range U.length).map (fun r => U.getD (p1.getD r 0) []),
   (List.range X.length).map (fun r => X.getD (p2.getD r 0) []))

/-- Model of `PSS.run_pss`.  The `then` branch transcribes the loop of lines 364-379
(per-block STS, then the two independent row shuffles, then column-block
assembly); it is unreachable because `pss_` is not an accepted keyword. -/
def PSS.run_pss (dist_type : List String) (dist_params : List (List ℚ))
    (pss_design pss_strata : List Nat)
    (u : Nat → Nat → Nat → ℚ) (perm : Nat → List Nat) :
    Except String (List (List ℚ) × List (List ℚ)) :=
  if PSS.stsCallKeywords.all (fun k => k ∈ STS.initKeywordParams) then
    (do
      let nsamples := (pss_strata.getD 0 1) ^ (pss_design.getD 0 1)
      let bs ← (List.range pss_design.length).mapM (fun i => do
        let r ← STS.run (List.replicate (pss_design.getD i 0) (pss_strata.getD i 0))
          dist_type dist_params (u i)
        pure (PSS.permutePair r.1 r.2 (perm (2*i)) (perm (2*i+1))))
      pure ((List.range nsamples).map (fun r => (bs.map (fun b => b.1.getD r [])).flatten),
            (List.range nsamples).map (fun r => (bs.map (fun b => b.2.getD r [])).flatten)))
  else
    .error "TypeError: unexpected keyword argument pss_"

/-- C7 (code bug).  MCS with `dimension=2`, `dist_type=['Uniform','Uniform']`,
`dist_params=[[0,1],[0,1]]`, `nsamples=100` does *not* return two 100×2
arrays: `run_mcs` calls `inv_cdf` with three positional arguments while
`Distributions.inv_cdf` takes one, so the run raises `TypeError` for every
oracle. -/
theorem mcs_run_inv_cdf_arity_error :
    exErr (MCS.run_mcs 100 2 ["Uniform", "Uniform"] [[0,1],[0,1]] (fun _ _ => 1/2))
      = some "TypeError: inv_cdf() takes 1 positional argument but 3 were given" := by
  decide

/-- C9 (code bug).  (1) `PSS.run_pss` raises `TypeError` at the `STS(...,
pss_=True)` call, so no arrays are returned at all.  (2) Even disregarding
that: the row-shuffling fragment applies two independently drawn permutations
to the unit-hypercube block and the transformed block, so with `U = X =
[[0],[1/2]]` (the `Uniform(0,1)` inverse CDF is the identity), `p1 = [0,1]`,
`p2 = [1,0]`, row 0 of the shuffled transformed block is *not* the transform
of row 0 of the shuffled unit-hypercube block. -/
theorem pss_run_keyword_error_and_row_mismatch :
    exErr (PSS.run_pss ["Uniform"] [[0,1]] [1] [2] (fun _ _ _ => 1/2) (fun _ => [0,1]))
      = some "TypeError: unexpected keyword argument pss_" ∧
    ¬ ((PSS.permutePair [[0],[(1:ℚ)/2]] [[0],[(1:ℚ)/2]] [0,1] [1,0]).2.getD 0 []
        = ((PSS.permutePair [[0],[(1:ℚ)/2]] [[0],[(1:ℚ)/2]] [0,1] [1,0]).1.getD 0 []).map
            (fun x => Distributions.uniform_ppf x 0 1)) := by
  constructor
  · decide
  · norm_num [PSS.permutePair, Distributions.uniform_ppf]

/-- Number of rows of `samples` (among the first `n` rows) lying in bin
`[k/n, (k+1)/n)` of dimension `j`. -/
def binCount (samples : List (List ℚ)) (n j k : Nat) : Nat :=
  samples.countP (fun row =>
    decide ((k : ℚ)/(n : ℚ) ≤ row.getD j 0 ∧ row.getD j 0 < ((k : ℚ)+1)/(n : ℚ)))

/-- C10 (code bug).  (1) `LHS.run_lhs` never returns: the cell transform calls
`inv_cdf(self.dist_type[j])` with a single string, which `inv_cdf` iterates
character by character, and no single character is a supported name, so
`NotImplementedError('Unidentified pdf_type')` is raised before anything is
returned.  (2) The unit-hypercube array the `random` and `centered` criteria
generate *before* that failing transform does satisfy the claim: with
`nsamples = 2`, one row per bin in each dimension. -/
theorem lhs_run_transform_error_and_binning :
    exErr (LHS.run_lhs 2 1 ["Uniform"] [[0,1]] LHS.Criterion.random
        (fun _ _ => 1/2) (fun _ => [1,0])) = some "Unidentified pdf_type" ∧
    binCount (LHS.lhsRandom 2 1 (fun _ _ => 1/2) (fun _ => [1,0])) 2 0 0 = 1 ∧
    binCount (LHS.lhsRandom 2 1 (fun _ _ => 1/2) (fun _ => [1,0])) 2 0 1 = 1 ∧
    binCount (LHS.lhsCentered 2 1 (fun _ => [1,0])) 2 0 0 = 1 ∧
    binCount (LHS.lhsCentered 2 1 (fun _ => [1,0])) 2 0 1 = 1 := by
  have hr : LHS.lhsRandom 2 1 (fun _ _ => 1/2) (fun _ => [1,0]) = [[3/4],[1/4]] := by
    norm_num [LHS.lhsRandom, LHS.lhsRandomBase, LHS.cutA, LHS.cutB, List.range_succ]
  have hc : LHS.lhsCentered 2 1 (fun _ => [1,0]) = [[3/4],[1/4]] := by
    norm_num [LHS.lhsCentered, LHS.cutA, LHS.cutB, List.range_succ]
  refine ⟨by decide, ?_, ?_, ?_, ?_⟩ <;> rw [binCount] <;>
    first
      | (rw [hr]; norm_num [List.countP, List.countP.go])
      | (rw [hc]; norm_num [List.countP, List.countP.go])

/-!
Section: MCMC — `run_mcmc` (SampleMethods.py lines 838-980)

Each kernel is modelled by its configuration (the attributes `run_mcmc` reads
after `init_mcmc` has normalised them), a per-run oracle for the random
primitives, a step function computing the value the loop body assigns to
`samples[i+1, :]` (or `none` where Python raises), and the `chainFold` loop
over the same index range as the Python `for`.
-/

/-- MH configuration: `pdf0` is `self.pdf_target[0]`, called `pdf_(x, params)`. -/
structure MHCfg where
  dimension : Nat
  ptype : List String
  pscale : List ℚ
  nsamples : Nat
  jump : Nat
  nburn : Nat
  seed : List ℚ
  pdf0 : List ℚ → List ℚ → ℚ
  params : List ℚ

/-- MH oracle: `znorm i` the standard draws behind `np.random.normal` at step
`i` (dimension 1), `zmv i` the centred draws behind
`np.random.multivariate_normal`, `uunif i j` the uniform draws behind
`np.random.uniform`, `uacc i` the `np.random.random()` acceptance draw. -/
structure MHOracle where
  znorm : Nat → List ℚ
  zmv : Nat → List ℚ
  uunif : Nat → Nat → ℚ
  uacc : Nat → ℚ

/-- A draw of `np.random.multivariate_normal(mean, cov)` (MH `Normal` proposal
with dimension > 1): the mean plus a centred perturbation.  The covariance
shaping is irrelevant to every claim below, so the perturbation is the oracle
vector itself. -/
def np_mv_normal (mean : List ℚ) (z : List ℚ) : List ℚ :=
  List.zipWith (fun m zj => m + zj) mean z

/-- Lines 855-867: the MH candidate.  `self.pdf_proposal_type[0] == 'Normal'`
selects the Normal branch; otherwise line 863 compares the proposal-type
*list* against the string `'Uniform'` (`pyListEqStr`, always false) whose body
would be the componentwise `np.random.uniform(x - s/2, x + s/2,
size=dimension)` draw; if neither branch fires, the name `candidate` is
unbound and line 869 raises `NameError` (modelled `none`). -/
def MH.candidate (cfg : MHCfg) (O : MHOracle) (x : List ℚ) (i : Nat) :
    Option (List ℚ) :=
  if cfg.ptype.headD "" = "Normal" then
    if cfg.dimension = 1 then
      some (zipWith3Q np_random_normal x cfg.pscale (O.znorm i))
    else
      some (np_mv_normal x (O.zmv i))
  else if pyListEqStr cfg.ptype "Uniform" then
    some ((List.range cfg.dimension).map (fun j =>
      np_random_uniform (x.getD j 0 - cfg.pscale.getD j 0 / 2)
        (x.getD j 0 + cfg.pscale.getD j 0 / 2) (O.uunif i j)))
  else
    none

/-- One MH loop body (lines 854-879): read `samples[i, :]`, draw the
candidate, accept iff `np.random.random() < pdf_(candidate)/pdf_(current)`. -/
def MH.next (cfg : MHCfg) (O : MHOracle) (b : List (List ℚ)) (i : Nat) :
    Option (List ℚ) := do
  let x ← b[i]?
  let cand ← MH.candidate cfg O x i
  pure (if O.uacc i < cfg.pdf0 cand cfg.params / cfg.pdf0 x cfg.params
        then cand else x)

/-- The raw MH buffer: `samples = np.zeros([nsamples*jump, dimension])` (line
842), `samples[0, :] = self.seed` (line 850), then the loop
`for i in range(nsamples*jump - 1 + nburn)` writing `samples[i+1, :]`. -/
def MH.runRaw (cfg : MHCfg) (O : MHOracle) : Option (List (List ℚ)) := do
  let total := cfg.nsamples * cfg.jump
  let b0 := List.replicate total (List.replicate cfg.dimension 0)
  let b1 ← pySet b0 0 cfg.seed
  chainFold (MH.next cfg O) b1 (List.range' 0 (total - 1 + cfg.nburn))

/-- Lines 971-972: `return samples[nburn : nsamples*jump + nburn : jump]`. -/
def MH.run (cfg : MHCfg) (O : MHOracle) : Option (List (List ℚ)) :=
  (MH.runRaw cfg O).map
    (fun b => pySliceStep b cfg.nburn (cfg.nsamples * cfg.jump + cfg.nburn) cfg.jump)

/-- MMH (`marginal_pdf` mode) configuration: `pdfm` is the per-dimension list
`self.pdf_target`. -/
structure MMHCfg where
  dimension : Nat
  ptype : List String
  pscale : List ℚ
  nsamples : Nat
  jump : Nat
  nburn : Nat
  seed : List ℚ
  pdfm : List (ℚ → List ℚ → ℚ)
  params : List ℚ

/-- MMH oracle: per step `i` and coordinate `j`, the standard normal draw, the
uniform draw, and the `np.random.random()` acceptance draw. -/
structure MMHOracle where
  znorm : Nat → Nat → ℚ
  uunif : Nat → Nat → ℚ
  uacc : Nat → Nat → ℚ

/-- Lines 893-898 (and 919-925): the per-coordinate MMH proposal, centred at
`samples[i, j]`.  `init_mcmc` guarantees every entry of `pdf_proposal_type` is
`'Normal'` or `'Uniform'`, so the `none` fallback is unreachable for validated
configurations. -/
def MMH.propose (ptype : List String) (pscale : List ℚ) (O : MMHOracle)
    (i j : Nat) (xj : ℚ) : Option ℚ :=
  if ptype.getD j "" = "Normal" then
    some (np_random_normal xj (pscale.getD j 0) (O.znorm i j))
  else if ptype.getD j "" = "Uniform" then
    some (np_random_uniform (xj - pscale.getD j 0 / 2) (xj + pscale.getD j 0 / 2)
      (O.uunif i j))
  else
    none

/-- Lines 891-909: in `marginal_pdf` mode, coordinate `j` of `samples[i+1, :]`
is the drawn candidate if `np.random.random() < pdf_j(cand)/pdf_j(samples[i,j])`,
else `samples[i, j]`. -/
def MMH.margCoord (cfg : MMHCfg) (O : MMHOracle) (x : List ℚ) (i j : Nat) :
    Option ℚ := do
  let cand ← MMH.propose cfg.ptype cfg.pscale O i j (x.getD j 0)
  pure (if O.uacc i j < (cfg.pdfm.getD j (fun _ _ => 0)) cand cfg.params
          / (cfg.pdfm.getD j (fun _ _ => 0)) (x.getD j 0) cfg.params
        then cand else x.getD j 0)

/-- One MMH (`marginal_pdf`) outer-loop body: all coordinates are proposed
from row `i` and written to row `i+1`. -/
def MMH.margNext (cfg : MMHCfg) (O : MMHOracle) (b : List (List ℚ)) (i : Nat) :
    Option (List ℚ) := do
  let x ← b[i]?
  (List.range cfg.dimension).mapM (fun j => MMH.margCoord cfg O x i j)

/-- Raw MMH (`marginal_pdf`) buffer: same allocation, seed write
(`samples[0, :] = self.seed[0:]`, line 885) and loop bounds as MH. -/
def MMH.margRunRaw (cfg : MMHCfg) (O : MMHOracle) : Option (List (List ℚ)) := do
  let total := cfg.nsamples * cfg.jump
  let b0 := List.replicate total (List.replicate cfg.dimension 0)
  let b1 ← pySet b0 0 cfg.seed
  chainFold (MMH.margNext cfg O) b1 (List.range' 0 (total - 1 + cfg.nburn))

/-- MMH (`joint_pdf` mode) configuration: a single joint target `pdf0`. -/
structure MMHJCfg where
  dimension : Nat
  ptype : List String
  pscale : List ℚ
  nsamples : Nat
  jump : Nat
  nburn : Nat
  seed : List ℚ
  pdf0 : List ℚ → List ℚ → ℚ
  params : List ℚ

/-- Lines 915-936: the inner coordinate sweep of `joint_pdf` mode.
`MMHJ.scan cfg O x i j` is the pair `(candidate, current)` after the first `j`
coordinates have been processed, starting from `candidate = current =
list(samples[i, :])`.  At coordinate `j`: `candidate[j]` is set to the drawn
proposal; on acceptance `current[j] = candidate[j]`, on rejection
`candidate[j] = current[j]`. -/
def MMHJ.scan (cfg : MMHJCfg) (O : MMHOracle) (x : List ℚ) (i : Nat) :
    Nat → Option (List ℚ × List ℚ)
  | 0 => some (x, x)
  | j+1 => do
    let s ← MMHJ.scan cfg O x i j
    let cj ← MMH.propose cfg.ptype cfg.pscale O i j (x.getD j 0)
    let cand1 := s.1.set j cj
    if O.uacc i j < cfg.pdf0 cand1 cfg.params / cfg.pdf0 s.2 cfg.params then
      pure (cand1, s.2.set j cj)
    else
      pure (cand1.set j (s.2.getD j 0), s.2)

/-- Line 938: `samples[i+1, :] = current` after the full coordinate sweep. -/
def MMHJ.next (cfg : MMHJCfg) (O : MMHOracle) (b : List (List ℚ)) (i : Nat) :
    Option (List ℚ) := do
  let x ← b[i]?
  let s ← MMHJ.scan cfg O x i cfg.dimension
  pure s.2

/-- Raw MMH (`joint_pdf`) buffer. -/
def MMHJ.runRaw (cfg : MMHJCfg) (O : MMHOracle) : Option (List (List ℚ)) := do
  let total := cfg.nsamples * cfg.jump
  let b0 := List.replicate total (List.replicate cfg.dimension 0)
  let b1 ← pySet b0 0 cfg.seed
  chainFold (MMHJ.next cfg O) b1 (List.range' 0 (total - 1 + cfg.nburn))

/-- Stretch configuration: `seed` is the `ensemble_size × dimension` initial
ensemble (`self.ensemble_size = len(self.seed)`, line 835). -/
structure StretchCfg where
  dimension : Nat
  pscale : List ℚ
  nsamples : Nat
  jump : Nat
  seed : List (List ℚ)
  pdf0 : List ℚ → List ℚ → ℚ
  params : List ℚ

/-- Stretch oracle: `cidx i` the `random.choice` companion index, `ustr i` the
`random.random()` stretch draw, `uacc i` the acceptance draw. -/
structure StretchOracle where
  cidx : Nat → Nat
  ustr : Nat → ℚ
  uacc : Nat → ℚ

/-- Lines 951-966: one Stretch loop body at index `i`.
`complementary_ensemble = samples[i-K+2 : i+1, :]`, the companion `S` is a
uniformly chosen row of it, `s = (1+(a-1)*random.random())**2 / a`,
`candidate = S + s*(samples[i-K+1, :] - S)`, and acceptance compares
`np.random.random()` against `s**(dimension-1) * p_proposal / p_current`. -/
def Stretch.next (cfg : StretchCfg) (O : StretchOracle) (b : List (List ℚ))
    (i : Nat) : Option (List ℚ) := do
  let K := cfg.seed.length
  let comp := pySlice1 b (i+2-K) (i+1)
  let S := py_random_choice comp (O.cidx i)
  let a := cfg.pscale.headD 0
  let z := (1 + (a - 1) * O.ustr i)^2 / a
  let x ← b[i+1-K]?
  let cand := List.zipWith (fun Sj xj => Sj + z * (xj - Sj)) S x
  pure (if O.uacc i < z^(cfg.dimension - 1) * cfg.pdf0 cand cfg.params
          / cfg.pdf0 x cfg.params
        then cand else x)

/-- Raw Stretch buffer: line 947 `samples[0:K, :] = self.seed` (a NumPy block
assignment that raises on shape mismatch when `K > nsamples*jump`), then
`for i in range(K-1, nsamples*jump - 1)`. -/
def Stretch.runRaw (cfg : StretchCfg) (O : StretchOracle) :
    Option (List (List ℚ)) :=
  let total := cfg.nsamples * cfg.jump
  let K := cfg.seed.length
  let b0 := List.replicate total (List.replicate cfg.dimension 0)
  if K ≤ total then
    chainFold (Stretch.next cfg O) (cfg.seed ++ b0.drop K)
      (List.range' (K-1) (total - 1 - (K-1)))
  else
    none

/-! ### Helper lemmas for the chain theorems -/

theorem getD_set_self {α : Type} (l : List α) (i : Nat) (v d : α)
    (h : i < l.length) : (l.set i v).getD i d = v := by
  simp [List.getD_eq_getElem?_getD, List.getElem?_set_self h]

theorem getD_set_ne {α : Type} (l : List α) (i j : Nat) (v d : α) (h : i ≠ j) :
    (l.set i v).getD j d = l.getD j d := by
  simp [List.getD_eq_getElem?_getD, List.getElem?_set_ne h]

theorem getD_of_getElem? {α : Type} {l : List α} {i : Nat} {v : α} (d : α)
    (h : l[i]? = some v) : l.getD i d = v := by
  simp [List.getD_eq_getElem?_getD, h]

theorem mem_of_getElem?Some {α : Type} {l : List α} {i : Nat} {a : α}
    (h : l[i]? = some a) : a ∈ l := by
  obtain ⟨hlt, rfl⟩ := List.getElem?_eq_some_iff.mp h
  exact List.getElem_mem hlt

theorem mapM_option_spec {α : Type} (g : Nat → Option α) :
    ∀ (l : List Nat) (row : List α), l.mapM g = some row →
      row.length = l.length ∧
      ∀ (k i : Nat), l[k]? = some i → ∃ v, g i = some v ∧ row[k]? = some v := by
  intro l
  induction l with
  | nil =>
    intro row h
    rw [List.mapM_nil] at h
    cases h
    exact ⟨rfl, by intro k i hk; simp at hk⟩
  | cons a l ih =>
    intro row h
    rw [List.mapM_cons] at h
    cases hga : g a with
    | none => rw [hga] at h; exact absurd h (by simp)
    | some b =>
      rw [hga] at h
      simp only [Option.bind_eq_bind, Option.some_bind] at h
      cases hrest : l.mapM g with
      | none => rw [hrest] at h; exact absurd h (by simp)
      | some bs =>
        rw [hrest] at h
        simp only [Option.bind_eq_bind, Option.some_bind, Option.pure_def,
          Option.some.injEq] at h
        subst h
        obtain ⟨hlen, hmem⟩ := ih bs hrest
        refine ⟨by simp [hlen], ?_⟩
        intro k i hk
        cases k with
        | zero =>
          simp only [List.getElem?_cons_zero, Option.some.injEq] at hk
          subst hk
          exact ⟨b, hga, by simp⟩
        | succ k' =>
          simp only [List.getElem?_cons_succ] at hk
          obtain ⟨v, hv, hrow⟩ := hmem k' i hk
          exact ⟨v, hv, by simpa using hrow⟩

/-- A row-wise invariant preserved by `chainFold`. -/
theorem chainFold_all {α : Type} (P : α → Prop) (f : List α → Nat → Option α)
    (hf : ∀ b i v, (∀ r ∈ b, P r) → f b i = some v → P v) :
    ∀ (is : List Nat) (b bN : List α), (∀ r ∈ b, P r) →
      chainFold f b is = some bN → ∀ r ∈ bN, P r := by
  intro is
  induction is with
  | nil =>
    intro b bN hb h
    simp only [chainFold, Option.some.injEq] at h
    subst h
    exact hb
  | cons i rest ih =>
    intro b bN hb h
    simp only [chainFold] at h
    cases hv : f b i with
    | none => rw [hv] at h; exact absurd h (by simp)
    | some v =>
      rw [hv] at h
      simp only [Option.some_bind] at h
      cases hb' : pySet b (i+1) v with
      | none => rw [hb'] at h; exact absurd h (by simp)
      | some b' =>
        rw [hb'] at h
        simp only [Option.some_bind] at h
        obtain ⟨_, hset⟩ := pySet_some hb'
        refine ih b' bN ?_ h
        intro r hr
        rw [hset] at hr
        rcases List.mem_or_eq_of_mem_set hr with hmem | rfl
        · exact hb r hmem
        · exact hf b i r hb hv

theorem MH.next_dep (cfg : MHCfg) (O : MHOracle) :
    ∀ (b b' : List (List ℚ)) (i : Nat), b.length = b'.length →
      (∀ j, j ≤ i → b[j]? = b'[j]?) → MH.next cfg O b i = MH.next cfg O b' i := by
  intro b b' i _ hag
  unfold MH.next
  rw [hag i (Nat.le_refl i)]

theorem MMH.margNext_dep (cfg : MMHCfg) (O : MMHOracle) :
    ∀ (b b' : List (List ℚ)) (i : Nat), b.length = b'.length →
      (∀ j, j ≤ i → b[j]? = b'[j]?) →
      MMH.margNext cfg O b i = MMH.margNext cfg O b' i := by
  intro b b' i _ hag
  unfold MMH.margNext
  rw [hag i (Nat.le_refl i)]

theorem MMHJ.jointNext_dep (cfg : MMHJCfg) (O : MMHOracle) :
    ∀ (b b' : List (List ℚ)) (i : Nat), b.length = b'.length →
      (∀ j, j ≤ i → b[j]? = b'[j]?) →
      MMHJ.next cfg O b i = MMHJ.next cfg O b' i := by
  intro b b' i _ hag
  unfold MMHJ.next
  rw [hag i (Nat.le_refl i)]

theorem Stretch.stretchNext_dep (cfg : StretchCfg) (O : StretchOracle)
    (hK : 1 ≤ cfg.seed.length) :
    ∀ (b b' : List (List ℚ)) (i : Nat), b.length = b'.length →
      (∀ j, j ≤ i → b[j]? = b'[j]?) →
      Stretch.next cfg O b i = Stretch.next cfg O b' i := by
  intro b b' i _ hag
  have htake : b.take (i+1) = b'.take (i+1) := by
    apply List.ext_getElem?
    intro m
    rw [List.getElem?_take, List.getElem?_take]
    by_cases hm : m < i + 1
    · simp only [hm, if_true]
      exact hag m (by omega)
    · simp [hm]
  have hx : b[i+1-cfg.seed.length]? = b'[i+1-cfg.seed.length]? :=
    hag _ (by omega)
  simp only [Stretch.next, pySlice1]
  rw [htake, hx]

theorem MMHJ.scan_succ_some {cfg : MMHJCfg} {O : MMHOracle} {x : List ℚ}
    {i j : Nat} {s' : List ℚ × List ℚ}
    (h : MMHJ.scan cfg O x i (j+1) = some s') :
    ∃ s cj, MMHJ.scan cfg O x i j = some s ∧
      MMH.propose cfg.ptype cfg.pscale O i j (x.getD j 0) = some cj ∧
      s' = (if O.uacc i j < cfg.pdf0 (s.1.set j cj) cfg.params
              / cfg.pdf0 s.2 cfg.params
            then (s.1.set j cj, s.2.set j cj)
            else ((s.1.set j cj).set j (s.2.getD j 0), s.2)) := by
  simp only [MMHJ.scan] at h
  cases hs : MMHJ.scan cfg O x i j with
  | none => rw [hs] at h; exact absurd h (by simp)
  | some s =>
    rw [hs] at h
    simp only [Option.bind_eq_bind, Option.some_bind] at h
    cases hc : MMH.propose cfg.ptype cfg.pscale O i j (x.getD j 0) with
    | none => rw [hc] at h; exact absurd h (by simp)
    | some cj =>
      rw [hc] at h
      simp only [Option.bind_eq_bind, Option.some_bind] at h
      refine ⟨s, cj, rfl, rfl, ?_⟩
      by_cases hcond : O.uacc i j < cfg.pdf0 (s.1.set j cj) cfg.params
          / cfg.pdf0 s.2 cfg.params
      · rw [if_pos hcond] at h ⊢
        simp only [Option.pure_def, Option.some.injEq] at h
        exact h.symm
      · rw [if_neg hcond] at h ⊢
        simp only [Option.pure_def, Option.some.injEq] at h
        exact h.symm

theorem MMHJ.scan_le_some {cfg : MMHJCfg} {O : MMHOracle} {x : List ℚ}
    {i : Nat} (m : Nat) :
    ∀ (d : Nat) (s' : List ℚ × List ℚ), MMHJ.scan cfg O x i (m + d) = some s' →
      ∃ t, MMHJ.scan cfg O x i m = some t := by
  intro d
  induction d with
  | zero => intro s' h; exact ⟨s', h⟩
  | succ d ih =>
    intro s' h
    rw [show m + (d+1) = (m+d) + 1 from by omega] at h
    obtain ⟨s, _, hs, _, _⟩ := MMHJ.scan_succ_some h
    exact ih s hs

theorem MMHJ.scan_len {cfg : MMHJCfg} {O : MMHOracle} {x : List ℚ} {i : Nat} :
    ∀ (n : Nat) (s : List ℚ × List ℚ), MMHJ.scan cfg O x i n = some s →
      s.1.length = x.length ∧ s.2.length = x.length := by
  intro n
  induction n with
  | zero =>
    intro s h
    simp only [MMHJ.scan, Option.some.injEq] at h
    subst h
    exact ⟨rfl, rfl⟩
  | succ n ih =>
    intro s' h
    obtain ⟨s, cj, hs, _, heq⟩ := MMHJ.scan_succ_some h
    obtain ⟨h1, h2⟩ := ih s hs
    rw [heq]
    by_cases hcond : O.uacc i n < cfg.pdf0 (s.1.set n cj) cfg.params
        / cfg.pdf0 s.2 cfg.params
    · rw [if_pos hcond]
      constructor <;> simp [List.length_set, h1, h2]
    · rw [if_neg hcond]
      constructor <;> simp [List.length_set, h1, h2]

theorem MMHJ.scan_cur_ge {cfg : MMHJCfg} {O : MMHOracle} {x : List ℚ} {i : Nat} :
    ∀ (n : Nat) (s : List ℚ × List ℚ) (j : Nat), MMHJ.scan cfg O x i n = some s →
      n ≤ j → s.2.getD j 0 = x.getD j 0 := by
  intro n
  induction n with
  | zero =>
    intro s j h _
    simp only [MMHJ.scan, Option.some.injEq] at h
    subst h
    rfl
  | succ n ih =>
    intro s' j h hnj
    obtain ⟨s, cj, hs, _, heq⟩ := MMHJ.scan_succ_some h
    have hne : n ≠ j := by omega
    have hih := ih s j hs (by omega)
    rw [heq]
    by_cases hcond : O.uacc i n < cfg.pdf0 (s.1.set n cj) cfg.params
        / cfg.pdf0 s.2 cfg.params
    · rw [if_pos hcond]
      show (s.2.set n cj).getD j 0 = x.getD j 0
      rw [getD_set_ne s.2 n j cj 0 hne]
      exact hih
    · rw [if_neg hcond]
      exact hih

theorem MMHJ.scan_cur_stable {cfg : MMHJCfg} {O : MMHOracle} {x : List ℚ}
    {i : Nat} (j : Nat) :
    ∀ (d : Nat) (s' s1 : List ℚ × List ℚ),
      MMHJ.scan cfg O x i ((j+1) + d) = some s' →
      MMHJ.scan cfg O x i (j+1) = some s1 →
      s'.2.getD j 0 = s1.2.getD j 0 := by
  intro d
  induction d with
  | zero =>
    intro s' s1 h h1
    rw [Nat.add_zero] at h
    rw [h] at h1
    injection h1 with h2
    rw [h2]
  | succ d ih =>
    intro s' s1 h h1
    rw [show (j+1) + (d+1) = ((j+1)+d) + 1 from by omega] at h
    obtain ⟨s, cj, hs, _, heq⟩ := MMHJ.scan_succ_some h
    have hne : (j+1)+d ≠ j := by omega
    have hih := ih s s1 hs h1
    rw [heq]
    by_cases hcond : O.uacc i ((j+1)+d) < cfg.pdf0 (s.1.set ((j+1)+d) cj) cfg.params
        / cfg.pdf0 s.2 cfg.params
    · rw [if_pos hcond]
      show (s.2.set ((j+1)+d) cj).getD j 0 = s1.2.getD j 0
      rw [getD_set_ne s.2 ((j+1)+d) j cj 0 hne]
      exact hih
    · rw [if_neg hcond]
      exact hih

/-- The per-coordinate accept/reject characterisation of the `joint_pdf`
sweep: coordinate `j` of the final `current` vector is the drawn candidate if
the acceptance draw at `(i, j)` beat the joint-density ratio of the working
candidate vector against the working current vector, else `samples[i, j]`. -/
theorem MMHJ.scan_coord {cfg : MMHJCfg} {O : MMHOracle} {x : List ℚ} {i : Nat}
    (d j : Nat) (hj : j < d) (hxj : j < x.length)
    (s : List ℚ × List ℚ) (h : MMHJ.scan cfg O x i d = some s) :
    ∃ s0 cj, MMHJ.scan cfg O x i j = some s0 ∧
      MMH.propose cfg.ptype cfg.pscale O i j (x.getD j 0) = some cj ∧
      s.2.getD j 0 = (if O.uacc i j < cfg.pdf0 (s0.1.set j cj) cfg.params
          / cfg.pdf0 s0.2 cfg.params then cj else x.getD j 0) := by
  have hd : (j+1) + (d - (j+1)) = d := by omega
  rw [← hd] at h
  obtain ⟨s1, hs1⟩ := MMHJ.scan_le_some (j+1) (d - (j+1)) s h
  obtain ⟨s0, cj, hs0, hc, heq1⟩ := MMHJ.scan_succ_some hs1
  have hstable := MMHJ.scan_cur_stable j (d - (j+1)) s s1 h hs1
  refine ⟨s0, cj, hs0, hc, ?_⟩
  rw [hstable, heq1]
  have hlen0 := (MMHJ.scan_len j s0 hs0).2
  by_cases hcond : O.uacc i j < cfg.pdf0 (s0.1.set j cj) cfg.params
      / cfg.pdf0 s0.2 cfg.params
  · rw [if_pos hcond, if_pos hcond]
    show (s0.2.set j cj).getD j 0 = cj
    exact getD_set_self s0.2 j cj 0 (by rw [hlen0]; exact hxj)
  · rw [if_neg hcond, if_neg hcond]
    exact MMHJ.scan_cur_ge j s0 j hs0 (Nat.le_refl j)

/-- Common shape of the MH/MMH raw runs: zero buffer of `total` rows, seed
written to row 0, `n` loop steps. -/
theorem mhShapeGeneric (next : List (List ℚ) → Nat → Option (List ℚ))
    (hdep : ∀ b b' i, b.length = b'.length → (∀ j, j ≤ i → b[j]? = b'[j]?) →
      next b i = next b' i)
    (total dim n : Nat) (seed : List ℚ) (buf : List (List ℚ))
    (h : ((pySet (List.replicate total (List.replicate dim (0:ℚ))) 0 seed).bind
      (fun b1 => chainFold next b1 (List.range' 0 n))) = some buf) :
    buf.length = total ∧ buf[0]? = some seed ∧
    ∀ i, i < n → ∃ v, next buf i = some v ∧ buf[i+1]? = some v := by
  cases hset : pySet (List.replicate total (List.replicate dim (0:ℚ))) 0 seed with
  | none => rw [hset] at h; exact absurd h (by simp)
  | some b1 =>
    rw [hset] at h
    simp only [Option.some_bind] at h
    obtain ⟨hlt, hb1⟩ := pySet_some hset
    obtain ⟨hlen, hpre, hstep⟩ := chainFold_spec next hdep n 0 b1 buf h
    have hlen1 : b1.length = total := by rw [hb1]; simp
    refine ⟨by rw [hlen, hlen1], ?_, ?_⟩
    · have h0 := hpre 0 (Nat.le_refl 0)
      rw [h0, hb1, List.getElem?_set_self (by simpa using hlt)]
    · intro i hi
      have := hstep i hi
      simpa using this

theorem MH.mhRunRaw_spec (cfg : MHCfg) (O : MHOracle) (buf : List (List ℚ))
    (h : MH.runRaw cfg O = some buf) :
    buf.length = cfg.nsamples * cfg.jump ∧ buf[0]? = some cfg.seed ∧
    ∀ i, i < cfg.nsamples * cfg.jump - 1 + cfg.nburn →
      ∃ v, MH.next cfg O buf i = some v ∧ buf[i+1]? = some v := by
  simp only [MH.runRaw, Option.bind_eq_bind] at h
  exact mhShapeGeneric (MH.next cfg O) (MH.next_dep cfg O) _ _ _ _ _ h

theorem MMH.margRunRaw_spec (cfg : MMHCfg) (O : MMHOracle) (buf : List (List ℚ))
    (h : MMH.margRunRaw cfg O = some buf) :
    buf.length = cfg.nsamples * cfg.jump ∧ buf[0]? = some cfg.seed ∧
    ∀ i, i < cfg.nsamples * cfg.jump - 1 + cfg.nburn →
      ∃ v, MMH.margNext cfg O buf i = some v ∧ buf[i+1]? = some v := by
  simp only [MMH.margRunRaw, Option.bind_eq_bind] at h
  exact mhShapeGeneric (MMH.margNext cfg O) (MMH.margNext_dep cfg O) _ _ _ _ _ h

theorem MMHJ.jointRunRaw_spec (cfg : MMHJCfg) (O : MMHOracle) (buf : List (List ℚ))
    (hseed : cfg.seed.length = cfg.dimension)
    (h : MMHJ.runRaw cfg O = some buf) :
    buf.length = cfg.nsamples * cfg.jump ∧ buf[0]? = some cfg.seed ∧
    (∀ r ∈ buf, r.length = cfg.dimension) ∧
    ∀ i, i < cfg.nsamples * cfg.jump - 1 + cfg.nburn →
      ∃ v, MMHJ.next cfg O buf i = some v ∧ buf[i+1]? = some v := by
  simp only [MMHJ.runRaw, Option.bind_eq_bind] at h
  have hgen := mhShapeGeneric (MMHJ.next cfg O) (MMHJ.jointNext_dep cfg O) _ _ _ _ _ h
  refine ⟨hgen.1, hgen.2.1, ?_, hgen.2.2⟩
  cases hset : pySet (List.replicate (cfg.nsamples * cfg.jump)
      (List.replicate cfg.dimension (0:ℚ))) 0 cfg.seed with
  | none => rw [hset] at h; exact absurd h (by simp)
  | some b1 =>
    rw [hset] at h
    simp only [Option.some_bind] at h
    obtain ⟨_, hb1⟩ := pySet_some hset
    refine chainFold_all (fun r => r.length = cfg.dimension) (MMHJ.next cfg O)
      ?_ _ b1 buf ?_ h
    · intro b i v hall hv
      simp only [MMHJ.next, Option.bind_eq_bind] at hv
      cases hx : b[i]? with
      | none => rw [hx] at hv; exact absurd hv (by simp)
      | some x =>
        rw [hx] at hv
        simp only [Option.some_bind] at hv
        cases hscan : MMHJ.scan cfg O x i cfg.dimension with
        | none => rw [hscan] at hv; exact absurd hv (by simp)
        | some s =>
          rw [hscan] at hv
          simp only [Option.some_bind, Option.pure_def, Option.some.injEq] at hv
          subst hv
          have hx' : x ∈ b := mem_of_getElem?Some hx
          rw [(MMHJ.scan_len cfg.dimension s hscan).2]
          exact hall x hx'
    · intro r hr
      rw [hb1] at hr
      rcases List.mem_or_eq_of_mem_set hr with hmem | rfl
      · rw [List.eq_of_mem_replicate hmem]; simp
      · exact hseed

/-- C2's content for the MH kernel: row 0 of the raw buffer is the seed, and
every written row is the drawn candidate on acceptance and the previous row
on rejection. -/
def MH.TransitionSpec (cfg : MHCfg) (O : MHOracle) (buf : List (List ℚ)) : Prop :=
  buf[0]? = some cfg.seed ∧
  ∀ i, i + 1 < buf.length →
    ∃ x cand, buf[i]? = some x ∧ MH.candidate cfg O x i = some cand ∧
      ((O.uacc i < cfg.pdf0 cand cfg.params / cfg.pdf0 x cfg.params →
          buf[i+1]? = some cand) ∧
       (¬ O.uacc i < cfg.pdf0 cand cfg.params / cfg.pdf0 x cfg.params →
          buf[i+1]? = some x))

/-- C2's content for MMH in `marginal_pdf` mode: per coordinate `j`, the
written entry is the drawn candidate on acceptance and `samples[i, j]` on
rejection, with the marginal density of dimension `j` deciding acceptance. -/
def MMH.MargTransitionSpec (cfg : MMHCfg) (O : MMHOracle)
    (buf : List (List ℚ)) : Prop :=
  buf[0]? = some cfg.seed ∧
  ∀ i, i + 1 < buf.length →
    ∃ x row, buf[i]? = some x ∧ buf[i+1]? = some row ∧
      row.length = cfg.dimension ∧
      ∀ j, j < cfg.dimension →
        ∃ cand, MMH.propose cfg.ptype cfg.pscale O i j (x.getD j 0) = some cand ∧
          ((O.uacc i j < (cfg.pdfm.getD j (fun _ _ => 0)) cand cfg.params
              / (cfg.pdfm.getD j (fun _ _ => 0)) (x.getD j 0) cfg.params →
            row[j]? = some cand) ∧
           (¬ O.uacc i j < (cfg.pdfm.getD j (fun _ _ => 0)) cand cfg.params
              / (cfg.pdfm.getD j (fun _ _ => 0)) (x.getD j 0) cfg.params →
            row[j]? = some (x.getD j 0)))

/-- C2's content for MMH in `joint_pdf` mode: row `i+1` is the `current`
vector of the coordinate sweep, and coordinate `j` of it is the drawn
candidate if accepted against the joint density of the working vectors, else
`samples[i, j]`. -/
def MMHJ.TransitionSpec (cfg : MMHJCfg) (O : MMHOracle)
    (buf : List (List ℚ)) : Prop :=
  buf[0]? = some cfg.seed ∧
  ∀ i, i + 1 < buf.length →
    ∃ x s, buf[i]? = some x ∧ x.length = cfg.dimension ∧
      MMHJ.scan cfg O x i cfg.dimension = some s ∧ buf[i+1]? = some s.2 ∧
      ∀ j, j < cfg.dimension →
        ∃ s0 cj, MMHJ.scan cfg O x i j = some s0 ∧
          MMH.propose cfg.ptype cfg.pscale O i j (x.getD j 0) = some cj ∧
          ((O.uacc i j < cfg.pdf0 (s0.1.set j cj) cfg.params
              / cfg.pdf0 s0.2 cfg.params → s.2.getD j 0 = cj) ∧
           (¬ O.uacc i j < cfg.pdf0 (s0.1.set j cj) cfg.params
              / cfg.pdf0 s0.2 cfg.params → s.2.getD j 0 = x.getD j 0))

/-- C2.  For every MH run, every MMH `marginal_pdf` run and every MMH
`joint_pdf` run whose raw buffer is produced without an exception, the first
row of the raw (pre-thinning) buffer equals the supplied seed, and at every
transition the accepted candidate (per coordinate, for MMH) is written while a
rejection leaves the value of the previous row unchanged. -/
theorem mh_mmh_chain_transitions
    (mhcfg : MHCfg) (mhO : MHOracle) (mhbuf : List (List ℚ))
    (hmh : MH.runRaw mhcfg mhO = some mhbuf)
    (mcfg : MMHCfg) (mO : MMHOracle) (mbuf : List (List ℚ))
    (hm : MMH.margRunRaw mcfg mO = some mbuf)
    (jcfg : MMHJCfg) (jO : MMHOracle) (jbuf : List (List ℚ))
    (hjseed : jcfg.seed.length = jcfg.dimension)
    (hj : MMHJ.runRaw jcfg jO = some jbuf) :
    MH.TransitionSpec mhcfg mhO mhbuf ∧ MMH.MargTransitionSpec mcfg mO mbuf ∧
      MMHJ.TransitionSpec jcfg jO jbuf := by
  refine ⟨?_, ?_, ?_⟩
  · obtain ⟨hlen, h0, hstep⟩ := MH.mhRunRaw_spec mhcfg mhO mhbuf hmh
    refine ⟨h0, ?_⟩
    intro i hi
    obtain ⟨v, hv, hw⟩ := hstep i (by omega)
    simp only [MH.next, Option.bind_eq_bind] at hv
    cases hx : mhbuf[i]? with
    | none => rw [hx] at hv; exact absurd hv (by simp)
    | some x =>
      rw [hx] at hv
      simp only [Option.some_bind] at hv
      cases hc : MH.candidate mhcfg mhO x i with
      | none => rw [hc] at hv; exact absurd hv (by simp)
      | some cand =>
        rw [hc] at hv
        simp only [Option.some_bind, Option.pure_def, Option.some.injEq] at hv
        subst hv
        refine ⟨x, cand, rfl, hc, ?_, ?_⟩
        · intro hacc; rw [if_pos hacc] at hw; exact hw
        · intro hacc; rw [if_neg hacc] at hw; exact hw
  · obtain ⟨hlen, h0, hstep⟩ := MMH.margRunRaw_spec mcfg mO mbuf hm
    refine ⟨h0, ?_⟩
    intro i hi
    obtain ⟨v, hv, hw⟩ := hstep i (by omega)
    simp only [MMH.margNext, Option.bind_eq_bind] at hv
    cases hx : mbuf[i]? with
    | none => rw [hx] at hv; exact absurd hv (by simp)
    | some x =>
      rw [hx] at hv
      simp only [Option.some_bind] at hv
      obtain ⟨hrlen, hrow⟩ := mapM_option_spec (fun j => MMH.margCoord mcfg mO x i j) _ v hv
      refine ⟨x, v, rfl, hw, by simpa using hrlen, ?_⟩
      intro j hj'
      obtain ⟨w, hwj, hrj⟩ := hrow j j (by simp [hj'])
      simp only [MMH.margCoord, Option.bind_eq_bind] at hwj
      cases hc : MMH.propose mcfg.ptype mcfg.pscale mO i j (x.getD j 0) with
      | none => rw [hc] at hwj; exact absurd hwj (by simp)
      | some cand =>
        rw [hc] at hwj
        simp only [Option.some_bind, Option.pure_def, Option.some.injEq] at hwj
        subst hwj
        refine ⟨cand, rfl, ?_, ?_⟩
        · intro hacc; rw [if_pos hacc] at hrj; exact hrj
        · intro hacc; rw [if_neg hacc] at hrj; exact hrj
  · obtain ⟨hlen, h0, hall, hstep⟩ := MMHJ.jointRunRaw_spec jcfg jO jbuf hjseed hj
    refine ⟨h0, ?_⟩
    intro i hi
    obtain ⟨v, hv, hw⟩ := hstep i (by omega)
    simp only [MMHJ.next, Option.bind_eq_bind] at hv
    cases hx : jbuf[i]? with
    | none => rw [hx] at hv; exact absurd hv (by simp)
    | some x =>
      rw [hx] at hv
      simp only [Option.some_bind] at hv
      cases hscan : MMHJ.scan jcfg jO x i jcfg.dimension with
      | none => rw [hscan] at hv; exact absurd hv (by simp)
      | some s =>
        rw [hscan] at hv
        simp only [Option.some_bind, Option.pure_def, Option.some.injEq] at hv
        subst hv
        have hxlen : x.length = jcfg.dimension :=
          hall x (mem_of_getElem?Some hx)
        refine ⟨x, s, rfl, hxlen, hscan, hw, ?_⟩
        intro j hj'
        obtain ⟨s0, cj, hs0, hc, hcoord⟩ :=
          MMHJ.scan_coord jcfg.dimension j hj' (by omega) s hscan
        refine ⟨s0, cj, hs0, hc, ?_, ?_⟩
        · intro hacc; rw [hcoord, if_pos hacc]
        · intro hacc; rw [hcoord, if_neg hacc]

theorem lt_iff_lt_min_one (u r : ℚ) (h1 : u < 1) : u < r ↔ u < min 1 r := by
  constructor
  · intro h; exact lt_min h1 h
  · intro h; exact lt_of_lt_of_le h (min_le_right 1 r)

/-- C3's content: at each Stretch transition writing row `K + t` (Python index
`i = K - 1 + t`), the complementary ensemble is exactly the `K-1` buffer rows
`t+1 … K+t-1` (the most recent `K-1` members, excluding row `t`, the point
being updated); the companion is the row at the uniformly drawn index; the
stretch factor is `z = (1+(a-1)·U)²/a`; the candidate is `S + z·(x_cur − S)`;
acceptance compares the draw against `z^(d-1)·π(cand)/π(x_cur)` (equivalently
against `min 1` of it, for a draw in `[0,1)`); and a rejection rewrites
`x_cur` unchanged. -/
def Stretch.TransitionSpec (cfg : StretchCfg) (O : StretchOracle)
    (buf : List (List ℚ)) : Prop :=
  (∀ r, r < cfg.seed.length → buf[r]? = cfg.seed[r]?) ∧
  ∀ t, t < cfg.nsamples * cfg.jump - cfg.seed.length →
    ∃ x, buf[t]? = some x ∧
      (let K := cfg.seed.length
       let i := K - 1 + t
       let comp := pySlice1 buf (t+1) (K+t)
       let S := py_random_choice comp (O.cidx i)
       let a := cfg.pscale.headD 0
       let z := (1 + (a - 1) * O.ustr i)^2 / a
       let cand := List.zipWith (fun Sj xj => Sj + z * (xj - Sj)) S x
       let ratio := z^(cfg.dimension - 1) * cfg.pdf0 cand cfg.params
         / cfg.pdf0 x cfg.params
       comp.length = K - 1 ∧
       S = comp.getD (O.cidx i % (K - 1)) [] ∧
       (O.uacc i < ratio → buf[K+t]? = some cand) ∧
       (¬ O.uacc i < ratio → buf[K+t]? = some x) ∧
       (O.uacc i < 1 → ((O.uacc i < ratio) ↔ O.uacc i < min 1 ratio)))

/-- C3.  Every completed Stretch run (ensemble size `K = seed.length ≥ 3`, as
validation requires) satisfies `Stretch.TransitionSpec`: the seed occupies the
first `K` raw rows and every transition follows the stretch-move rule of the
claim. -/
theorem stretch_transitions (cfg : StretchCfg) (O : StretchOracle)
    (buf : List (List ℚ)) (hK : 3 ≤ cfg.seed.length)
    (h : Stretch.runRaw cfg O = some buf) :
    Stretch.TransitionSpec cfg O buf := by
  simp only [Stretch.runRaw] at h
  split at h
  case isFalse => exact absurd h (by simp)
  case isTrue hKT =>
    obtain ⟨hlen, hpre, hstep⟩ :=
      chainFold_spec (Stretch.next cfg O) (Stretch.stretchNext_dep cfg O (by omega))
        (cfg.nsamples * cfg.jump - 1 - (cfg.seed.length - 1)) (cfg.seed.length - 1)
        _ buf h
    have hlenb : (cfg.seed ++ (List.replicate (cfg.nsamples * cfg.jump)
        (List.replicate cfg.dimension (0:ℚ))).drop cfg.seed.length).length
        = cfg.nsamples * cfg.jump := by
      simp only [List.length_append, List.length_drop, List.length_replicate]
      omega
    have hbuflen : buf.length = cfg.nsamples * cfg.jump := by rw [hlen, hlenb]
    constructor
    · intro r hr
      have h1 := hpre r (by omega)
      rw [h1, List.getElem?_append]
      simp [hr]
    · intro t ht
      have hstep' := hstep t (by omega)
      obtain ⟨v, hv, hw⟩ := hstep'
      have ei : cfg.seed.length - 1 + t + 1 - cfg.seed.length = t := by omega
      have ei2 : cfg.seed.length - 1 + t + 2 - cfg.seed.length = t + 1 := by omega
      have ei3 : cfg.seed.length - 1 + t + 1 = cfg.seed.length + t := by omega
      have ei4 : cfg.seed.length + t - cfg.seed.length = t := by omega
      rw [ei3] at hw
      simp only [Stretch.next, Option.bind_eq_bind, ei, ei2, ei3, ei4] at hv
      cases hx : buf[t]? with
      | none => rw [hx] at hv; exact absurd hv (by simp)
      | some x =>
        rw [hx] at hv
        simp only [Option.some_bind, Option.pure_def, Option.some.injEq] at hv
        subst hv
        refine ⟨x, rfl, ?_⟩
        have hcomplen : (pySlice1 buf (t+1) (cfg.seed.length + t)).length
            = cfg.seed.length - 1 := by
          simp only [pySlice1, List.length_drop, List.length_take]
          omega
        refine ⟨hcomplen, ?_, ?_, ?_, ?_⟩
        · rw [py_random_choice, hcomplen]
        · intro hacc
          rw [hw, if_pos hacc]
        · intro hacc
          rw [hw, if_neg hacc]
        · intro hu1
          exact lt_iff_lt_min_one _ _ hu1

/-! ### Concrete configurations and oracles used by the closed theorems -/

/-- MH oracle used by the closed instances: normal draw 1, acceptance draw
1/2. -/
def mhOracleW : MHOracle := ⟨fun _ => [1], fun _ => [], fun _ _ => 0, fun _ => 1/2⟩

/-- MH, `Normal` proposal, `dimension = 1`, `nsamples = 1`, `jump = 1`,
`nburn = 1`, constant target density. -/
def c1FailCfg : MHCfg := ⟨1, ["Normal"], [1], 1, 1, 1, [0], fun _ _ => 1, []⟩

/-- Same MH chain with `nburn = 0`, `nsamples = 2`, `jump = 2`. -/
def c1OkCfg : MHCfg := ⟨1, ["Normal"], [1], 2, 2, 0, [0], fun _ _ => 1, []⟩

theorem uniform_ne_normal : ("Uniform" = "Normal") = False := eq_false (by decide)

set_option maxHeartbeats 1000000 in
/-- C1 (code bug).  The raw buffer holds `nsamples*jump` rows (line 842) but
the loop performs `nsamples*jump - 1 + nburn` writes at rows `1 … nsamples*jump
- 1 + nburn` and the return slice (line 972) reaches `nsamples*jump + nburn`,
so with `nburn = 1` (and `nsamples = jump = 1`) the write at row 1 of a
1-row buffer raises `IndexError` and the run produces nothing; with
`nburn = 0` the slice does return exactly `nsamples` rows (here
`[[0],[2]]`: rows 0 and 2 of the 4-row raw chain `0,1,2,3` under `jump=2`). -/
theorem mh_nburn_overflow_and_thinning :
    MH.runRaw c1FailCfg mhOracleW = none ∧
    MH.run c1OkCfg mhOracleW = some [[0],[2]] := by
  constructor
  · norm_num [MH.runRaw, pySet, chainFold, MH.next, MH.candidate, zipWith3Q,
      np_random_normal, pyListEqStr, c1FailCfg, mhOracleW, List.range',
      Option.bind_eq_bind, List.replicate, List.set]
  · have hraw : MH.runRaw c1OkCfg mhOracleW = some [[0],[1],[2],[3]] := by
      norm_num [MH.runRaw, pySet, chainFold, MH.next, MH.candidate,
        zipWith3Q, np_random_normal, pyListEqStr, c1OkCfg, mhOracleW,
        List.range', Option.bind_eq_bind, List.replicate, List.set]
    rw [MH.run, hraw]
    norm_num [pySliceStep, c1OkCfg, List.range_succ, List.filterMap_append,
      List.filterMap_cons]

/-- MH with the default proposal type: after `init_mcmc`,
`pdf_proposal_type = ['Uniform']`. -/
def c4Cfg : MHCfg := ⟨1, ["Uniform"], [1], 2, 1, 0, [0], fun _ _ => 1, []⟩

/-- C4 (code bug).  For an MH run with `Uniform` proposal, the candidate is
*never* drawn from `Uniform(x - s/2, x + s/2)`: line 863 compares the
proposal-type list with the string `'Uniform'`, which is always false in
Python, so no branch assigns `candidate` and the first iteration raises
`NameError` — the run produces nothing, for every current point and step. -/
theorem mh_uniform_proposal_branch_dead :
    (∀ (x : List ℚ) (i : Nat), MH.candidate c4Cfg mhOracleW x i = none) ∧
    MH.runRaw c4Cfg mhOracleW = none := by
  constructor
  · intro x i; rfl
  · norm_num [MH.runRaw, pySet, chainFold, MH.next, MH.candidate,
      pyListEqStr, uniform_ne_normal, c4Cfg, List.range',
      Option.bind_eq_bind, List.replicate, List.set]

/-- MH witness configuration for C2: `Normal` proposal, two raw rows. -/
def c2mhCfg : MHCfg := ⟨1, ["Normal"], [1], 2, 1, 0, [0], fun _ _ => 1, []⟩

/-- MMH witness configuration (marginal mode), `Uniform` proposal, scale 2. -/
def c2mmCfg : MMHCfg := ⟨1, ["Uniform"], [2], 2, 1, 0, [0], [fun _ _ => 1], []⟩

/-- MMH witness configuration (joint mode). -/
def c2mjCfg : MMHJCfg := ⟨1, ["Uniform"], [2], 2, 1, 0, [0], fun _ _ => 1, []⟩

/-- MMH witness oracle: uniform draw 3/4, acceptance draw 1/2. -/
def mmOracleW : MMHOracle := ⟨fun _ _ => 0, fun _ _ => 3/4, fun _ _ => 1/2⟩

/-- Witness for C2 at three concrete one-step runs (the chains `0 → 1`,
`0 → 1/2`, `0 → 1/2`). -/
theorem mh_mmh_chain_transitions_witness :
    MH.TransitionSpec c2mhCfg mhOracleW [[0],[1]] ∧
    MMH.MargTransitionSpec c2mmCfg mmOracleW [[0],[1/2]] ∧
    MMHJ.TransitionSpec c2mjCfg mmOracleW [[0],[1/2]] :=
  mh_mmh_chain_transitions c2mhCfg mhOracleW [[0],[1]]
    (by norm_num [MH.runRaw, pySet, chainFold, MH.next, MH.candidate,
      zipWith3Q, np_random_normal, pyListEqStr, c2mhCfg, mhOracleW,
      List.range', Option.bind_eq_bind, List.replicate, List.set])
    c2mmCfg mmOracleW [[0],[1/2]]
    (by norm_num [MMH.margRunRaw, pySet, chainFold, MMH.margNext,
      MMH.margCoord, MMH.propose, np_random_uniform, c2mmCfg, mmOracleW,
      List.range', List.range_succ, Option.bind_eq_bind, List.replicate,
      List.set, List.mapM_cons, List.mapM_nil, List.mapM.loop,
      uniform_ne_normal])
    c2mjCfg mmOracleW [[0],[1/2]]
    (by decide)
    (by norm_num [MMHJ.runRaw, pySet, chainFold, MMHJ.next, MMHJ.scan,
      MMH.propose, np_random_uniform, c2mjCfg, mmOracleW, List.range',
      Option.bind_eq_bind, List.replicate, List.set, uniform_ne_normal])

/-- Stretch witness configuration: `K = 3` walkers in dimension 1,
`pdf_proposal_scale = 2`, four raw steps. -/
def c3Cfg : StretchCfg := ⟨1, [2], 4, 1, [[0],[1],[2]], fun _ _ => 1, []⟩

/-- Stretch witness oracle: companion index 0, stretch draw 1/2, acceptance
draw 1/2. -/
def c3O : StretchOracle := ⟨fun _ => 0, fun _ => 1/2, fun _ => 1/2⟩

/-- Witness for C3: the single transition of the concrete run picks `S = [1]`,
`z = 9/8`, candidate `[-1/8]`, accepts, and writes row 3. -/
theorem stretch_transitions_witness :
    (3 ≤ c3Cfg.seed.length) ∧
    Stretch.runRaw c3Cfg c3O = some [[0],[1],[2],[-1/8]] ∧
    Stretch.TransitionSpec c3Cfg c3O [[0],[1],[2],[-1/8]] :=
  ⟨by decide,
   by norm_num [Stretch.runRaw, pySet, chainFold, Stretch.next, pySlice1,
     py_random_choice, c3Cfg, c3O, List.range', Option.bind_eq_bind,
     List.replicate, List.set, List.getD],
   stretch_transitions c3Cfg c3O _ (by decide)
     (by norm_num [Stretch.runRaw, pySet, chainFold, Stretch.next, pySlice1,
       py_random_choice, c3Cfg, c3O, List.range', Option.bind_eq_bind,
       List.replicate, List.set, List.getD])⟩

/-!
Section: `MCMC.init_mcmc` — validation and defaulting (lines 987-1097)

The model mirrors the statement order of the source exactly.  Python `is` /
`is not` comparisons between interned string literals behave as string
equality and are modelled as such.  `pdf_target` resolution (lines 1063-1094)
raises no exception for the `None` and callable input forms — the only forms
the claims exercise — so the resolved target functions are not part of the
record.
-/

/-- A seed as `init_mcmc` sees it: a 1-D array (as the substituted default
`np.zeros(dimension)`) or a 2-D array of chain/ensemble rows.  For both,
`len(seed)` and `seed.shape[0]` are the outer length. -/
inductive SeedIn where
  | vec : List ℚ → SeedIn
  | mat : List (List ℚ) → SeedIn
deriving DecidableEq

def SeedIn.outerLen : SeedIn → Nat
  | .vec v => v.length
  | .mat m => m.length

/-- Model of `pdf_proposal_type` input: a plain string or a list of strings. -/
inductive StrOrList where
  | str : String → StrOrList
  | list : List String → StrOrList

/-- Model of `pdf_proposal_scale` input: a scalar or a list. -/
inductive NumOrList where
  | num : ℚ → NumOrList
  | list : List ℚ → NumOrList

structure MCMCInput where
  dimension : Option Nat
  pdf_proposal_type : Option StrOrList
  pdf_proposal_scale : Option NumOrList
  pdf_target_type : Option String
  algorithm : Option String
  jump : Option Nat
  nsamples : Option Nat
  seed : Option SeedIn
  nburn : Option Nat

structure MCMCResolved where
  dimension : Nat
  ptype : List String
  pscale : List ℚ
  ptargettype : String
  algorithm : String
  jump : Nat
  nsamples : Nat
  seed : SeedIn
  nburn : Nat

def init_mcmc (inp : MCMCInput) : Except String MCMCResolved := do
  -- lines 989-990
  let dimension := inp.dimension.getD 1
  -- lines 993-994
  let nsamples ← match inp.nsamples with
    | none => Except.error "Exit code: Number of samples not defined."
    | some n => pure n
  -- lines 997-998: an omitted seed is replaced by np.zeros(dimension)
  let seed := inp.seed.getD (SeedIn.vec (List.replicate dimension 0))
  -- lines 999-1004: note that `self.algorithm` is still the *input* value
  let _ ← (if inp.algorithm ≠ some "Stretch" then
      (if seed.outerLen ≠ dimension then
        Except.error "Exit code: Incompatible dimensions in seed."
      else pure ())
    else
      (if seed.outerLen < 3 then
        Except.error "Exit code: Ensemble size must be > 2."
      else pure ()))
  -- lines 1007-1008
  let jump := inp.jump.getD 1
  -- lines 1011-1015
  let pt0 := inp.pdf_proposal_type.getD (StrOrList.str "Uniform")
  let ptlist := match pt0 with | .str s => [s] | .list l => l
  -- lines 1016-1020
  let _ ← (if ¬ ptlist.all (fun s => decide (s ∈ ["Uniform", "Normal"])) then
      Except.error "Exit code: Unrecognized type for proposal distribution. Supported distributions: Uniform, Normal."
    else pure ())
  -- lines 1021-1027
  let ptype ←
    (if inp.algorithm = some "MH" ∧ ptlist.length ≠ 1 then
      Except.error "Exit code: MH algorithm can only take one proposal distribution."
    else if ptlist.length ≠ dimension then
      (if ptlist.length = 1 then pure ((List.replicate dimension ptlist).flatten)
      else Except.error "Exit code: Incompatible dimensions in pdf_proposal_type.")
    else pure ptlist)
  -- lines 1030-1041 (line 1031 reads the *input* algorithm as well)
  let ps0 := match inp.pdf_proposal_scale with
    | none => if inp.algorithm = some "Stretch" then NumOrList.num 2 else NumOrList.num 1
    | some v => v
  let pslist := match ps0 with | .num q => [q] | .list l => l
  let pscale ←
    (if pslist.length ≠ dimension then
      (if pslist.length = 1 then pure ((List.replicate dimension pslist).flatten)
      else Except.error "Exit code: Incompatible dimensions in pdf_proposal_scale.")
    else pure pslist)
  -- lines 1044-1051: the marginal default fires only when the *input*
  -- algorithm is already the string MMH
  let tt1 := if inp.algorithm = some "MMH" ∧ inp.pdf_target_type = none
             then some "marginal_pdf" else inp.pdf_target_type
  let tt2 := if inp.algorithm = some "Stretch" then some "joint_pdf" else tt1
  let ptargettype ← match tt2 with
    | some s =>
      if s ∈ ["joint_pdf", "marginal_pdf"] then pure s
      else Except.error "Exit code: Unrecognized type for target distribution. Supported distributions: joint_pdf, marginal_pdf."
    | none => Except.error "Exit code: Unrecognized type for target distribution. Supported distributions: joint_pdf, marginal_pdf."
  -- lines 1054-1061: the algorithm default is applied only *after* the
  -- target-type check above
  let algorithm ← match inp.algorithm with
    | none => pure "MMH"
    | some a =>
      if a ∈ ["MH", "MMH", "Stretch"] then pure a
      else Except.error "Exit code: Unrecognized MCMC algorithm. Supported algorithms: Metropolis-Hastings (MH), Modified Metropolis-Hastings (MMH), Affine Invariant Ensemble with Stretch Moves (Stretch)."
  -- lines 1063-1094: pdf_target defaulting, no exception for these inputs
  -- lines 1096-1097
  let nburn := inp.nburn.getD 0
  pure ⟨dimension, ptype, pscale, ptargettype, algorithm, jump, nsamples, seed, nburn⟩

/-- Model of `MCMC(dimension=1, nsamples=10)`: algorithm and target type omitted. -/
def c5Input : MCMCInput :=
  ⟨some 1, none, none, none, none, none, some 10, none, none⟩

/-- The same call with `algorithm='MMH'` supplied explicitly. -/
def c5bInput : MCMCInput :=
  ⟨some 1, none, none, none, some "MMH", none, some 10, none, none⟩

/-- C5 (code bug).  With both `algorithm` and `pdf_target_type` omitted,
`init_mcmc` raises `ValueError` instead of defaulting to MMH/`marginal_pdf`:
the target-type check (line 1048) runs before the algorithm default (line
1054), and the conditional default at line 1044 sees `algorithm is None`, so
`pdf_target_type` is still `None` when the membership check fires.  Passing
`algorithm='MMH'` explicitly makes the same call validate cleanly. -/
theorem init_mcmc_omitted_algorithm_raises :
    exErr (init_mcmc c5Input)
      = some "Exit code: Unrecognized type for target distribution. Supported distributions: joint_pdf, marginal_pdf." ∧
    exErr (init_mcmc c5bInput) = none := by
  constructor <;> decide

/-- Model of `MCMC(dimension=3, algorithm='Stretch', nsamples=10)`: seed omitted. -/
def c6OmitInput : MCMCInput :=
  ⟨some 3, none, none, none, some "Stretch", none, some 10, none, none⟩

/-- The same call with a two-row ensemble seed supplied. -/
def c6SmallInput : MCMCInput :=
  ⟨some 3, none, none, none, some "Stretch", none, some 10,
   some (SeedIn.mat [[0,0,0],[1,1,1]]), none⟩

/-- C6 (code bug).  For Stretch, an omitted seed is *not* always rejected:
line 998 substitutes `np.zeros(dimension)` before the ensemble check, and for
`dimension = 3` that array's `shape[0]` is 3, so `init_mcmc` succeeds and
sampling proceeds from the broadcast zero ensemble.  A supplied seed with
fewer than 3 rows is rejected as the claim states. -/
theorem init_mcmc_stretch_omitted_seed_accepted :
    exErr (init_mcmc c6OmitInput) = none ∧
    exErr (init_mcmc c6SmallInput) = some "Exit code: Ensemble size must be > 2." := by
  constructor <;> decide
